import Mathlib

/-!
# Verification of the trystero per-room transmission engine (`src/room.js`)

Shallow embedding of the action registration, framing/chunking (`send`),
and inbound parsing/reassembly (`handleData`) logic of `src/room.js`.

Representation choices, documented once here:

* A `Uint8Array` / byte buffer is a `List Nat`; the source guarantees every
  entry is `< 256` (Uint8Array coercion), which the theorems do not need
  except where noted, since both sides of the protocol carry the same lists.
* JS strings are represented by their UTF-8 byte sequences (`List Nat`).
  Under this representation the text encoder/decoder pair from `utils.js`
  (not part of the sources provided under `src/`) become identities; see
  `encodeBytes` / `decodeBytes` below.
* JSON-serializable objects (metadata, non-string payloads) are represented
  by the UTF-8 bytes of their JSON serialization, so `toJson` / `fromJson`
  from `utils.js` also become identities on the representation; see below.
* `async` evaluation order, promises and the backpressure wait of the send
  loop are not modelled; the frame sequence produced by one `send` call and
  the per-frame receiver transition are pure and modelled exactly.
-/

namespace Trystero

/-- Byte buffers (`Uint8Array` contents): lists of byte values. -/
abbrev Bytes := List Nat

/-! ## Constants (room.js lines 16-23) -/

/-- `const typeByteLimit = 12` -/
def typeByteLimit : Nat := 12

/-- `const typeIndex = 0` -/
def typeIndex : Nat := 0

/-- `const nonceIndex = typeIndex + typeByteLimit` -/
def nonceIndex : Nat := typeIndex + typeByteLimit

/-- `const tagIndex = nonceIndex + 1` -/
def tagIndex : Nat := nonceIndex + 1

/-- `const progressIndex = tagIndex + 1` -/
def progressIndex : Nat := tagIndex + 1

/-- `const payloadIndex = progressIndex + 1` -/
def payloadIndex : Nat := progressIndex + 1

/-- `const chunkSize = 16 * 2 ** 10 - payloadIndex` -/
def chunkSize : Nat := 16 * 2 ^ 10 - payloadIndex

/-- `const oneByteMax = 0xff` -/
def oneByteMax : Nat := 0xff

/-! ## Modelled utilities (`utils.js` is not under `src/`) -/

/-- Modelled from the spec: `encodeBytes` from `utils.js` (not under `src/`)
is the UTF-8 text encoder. JS strings are represented in this development by
their UTF-8 byte sequences, so on the representation the encoder is the
identity. -/
def encodeBytes (s : Bytes) : Bytes := s

/-- Modelled from the spec: `decodeBytes` from `utils.js` (not under `src/`)
is the UTF-8 text decoder, the inverse of `encodeBytes`; the identity on the
representation. -/
def decodeBytes (b : Bytes) : Bytes := b

/-- `.replaceAll('\x00', '')` applied to a decoded type-name string
(room.js lines 204-207): removes every NUL byte. -/
def stripNul (b : Bytes) : Bytes := b.filter (fun x => x ≠ 0)

/-- Modelled from the spec: `toJson` from `utils.js` (not under `src/`)
serializes an object to JSON text. Metadata objects and non-string payloads
are represented by the UTF-8 bytes of their JSON serialization, so on the
representation serialization is the identity. -/
def toJson (j : Bytes) : Bytes := j

/-- Modelled from the spec: `fromJson` from `utils.js` (not under `src/`)
parses JSON text, the inverse of `toJson`; the identity on the
representation. -/
def fromJson (b : Bytes) : Bytes := b

/-- Modelled from the spec: `alloc(n, f)` from `utils.js` (not under `src/`)
builds an array of length `n` whose `i`-th entry is `f i` (the source passes
`(_, i) => ...` callbacks, which only use the index). -/
def alloc (n : Nat) (f : Nat → α) : List α := (List.range n).map f

/-- `target.set(src, offset)` on typed arrays: overwrite `target` starting at
`offset` with the entries of `src`. All uses in `room.js` write within
bounds, where this model is exact. -/
def setAt (target src : Bytes) (offset : Nat) : Bytes :=
  target.take offset ++ src ++ target.drop (offset + src.length)

/-! ## Data classification at the `send` call site (room.js lines 102-119) -/

/-- A JS value passed as the `data` argument of `send`, classified the way
lines 102-111 of `room.js` classify it: `typeof data` is `'undefined'`
(`undef`), `'string'` (`str`, represented by its UTF-8 bytes), a
`Blob`/`ArrayBuffer`/`TypedArray` (`bin`, represented by its byte contents),
or any other defined value (`other`, represented by the UTF-8 bytes of its
JSON serialization). -/
inductive JSData
  | undef
  | str (bytes : Bytes)
  | bin (bytes : Bytes)
  | other (json : Bytes)
  deriving DecidableEq, Repr

/-- A truthy JS value passed as the `meta` argument of `send`: either an
object (represented by the bytes of its JSON serialization) or a non-object
truthy value (rejected by line 98). A falsy/omitted `meta` is `none` at the
use sites. -/
inductive JSMeta
  | obj (json : Bytes)
  | nonObj
  deriving DecidableEq, Repr

/-- `isJson = dataType !== 'string'` (room.js line 108). -/
def isJsonOf : JSData → Bool
  | .str _ => false
  | _ => true

/-- `isBinary = isBlob || data instanceof ArrayBuffer || data instanceof
TypedArray` (room.js lines 110-111). -/
def isBinaryOf : JSData → Bool
  | .bin _ => true
  | _ => false

/-- `buffer = isBinary ? new Uint8Array(...) : encodeBytes(isJson ?
toJson(data) : data)` (room.js lines 117-119), on the representation. -/
def bufferOf : JSData → Bytes
  | .undef => []
  | .str b => encodeBytes b
  | .bin b => b
  | .other j => encodeBytes (toJson j)

/-- The serialized metadata bytes: `metaEncoded = meta ?
encodeBytes(toJson(meta)) : null` (room.js line 121); `[]` stands for the
unused `null`. -/
def metaJson : Option JSMeta → Bytes
  | some (.obj j) => encodeBytes (toJson j)
  | _ => []

/-- `chunkTotal = Math.ceil(buffer.byteLength / chunkSize) + (meta ? 1 : 0)
|| 1` (room.js lines 123-124). -/
def chunkTotalOf (bufLen : Nat) (hasMeta : Bool) : Nat :=
  let n := (bufLen + chunkSize - 1) / chunkSize + (if hasMeta then 1 else 0)
  if n = 0 then 1 else n

/-- The tag bitfield `isLast | (isMeta << 1) | (isBinary << 2) |
(isJson << 3)` (room.js line 142). -/
def tagByte (isLast isMeta isBinary isJson : Bool) : Nat :=
  (if isLast then 1 else 0) |||
    ((if isMeta then 1 else 0) <<< 1) |||
    ((if isBinary then 1 else 0) <<< 2) |||
    ((if isJson then 1 else 0) <<< 3)

/-- The progress byte `Math.round(((i + 1) / chunkTotal) * oneByteMax)`
(room.js line 146), as exact rational rounding (round half up, which is what
`Math.round` does for the positive values that occur here). -/
def progressByte (i chunkTotal : Nat) : Nat :=
  ((i + 1) * oneByteMax * 2 + chunkTotal) / (2 * chunkTotal)

/-- The payload slice of fragment `i` (room.js lines 149-156):
`meta ? (isMeta ? metaEncoded : buffer.subarray((i-1)*chunkSize,
i*chunkSize)) : buffer.subarray(i*chunkSize, (i+1)*chunkSize)`. -/
def payloadSliceOf (buffer metaEncoded : Bytes) (hasMeta : Bool) (i : Nat) :
    Bytes :=
  if hasMeta then
    if i = 0 then metaEncoded
    else ((buffer.drop ((i - 1) * chunkSize)).take chunkSize)
  else ((buffer.drop (i * chunkSize)).take chunkSize)

/-- One fragment of a `send` call (room.js lines 126-158): a zero-filled
buffer of the allocated size, overwritten by the four `chunk.set` calls.
The nonce is stored through Uint8Array coercion (modulo 256). -/
def mkChunk (typeBytesPadded : Bytes) (nonce : Nat) (buffer metaEncoded : Bytes)
    (hasMeta isBinary isJson : Bool) (chunkTotal i : Nat) : Bytes :=
  let isLast : Bool := i == chunkTotal - 1
  let isMeta : Bool := hasMeta && i == 0
  let size := payloadIndex +
    (if isMeta then metaEncoded.length
     else if isLast then
       buffer.length - chunkSize * (chunkTotal - (if hasMeta then 2 else 1))
     else chunkSize)
  let c := List.replicate size 0
  let c := setAt c typeBytesPadded typeIndex
  let c := setAt c [nonce % (oneByteMax + 1)] nonceIndex
  let c := setAt c [tagByte isLast isMeta isBinary isJson] tagIndex
  let c := setAt c [progressByte i chunkTotal] progressIndex
  setAt c (payloadSliceOf buffer metaEncoded hasMeta i) payloadIndex

/-- Errors thrown by `send` (room.js lines 98-115). -/
inductive SendErr
  | metaNotObject
  | dataUndefined
  | metaWithNonBinary
  deriving DecidableEq, Repr

/-- The pure core of `send` (room.js lines 97-161): validation, payload
classification, fragmentation, and the nonce advance
`nonce = (nonce + 1) & oneByteMax`. Takes the action's encoded type name and
current nonce; returns the frames produced (in order) and the action's nonce
after the call. The per-target delivery loop is modelled separately
(`senderProgressBytes`). -/
def sendFrames (typeBytes : Bytes) (nonce : Nat) (data : JSData)
    (meta : Option JSMeta) : Except SendErr (List Bytes × Nat) :=
  if meta = some .nonObj then .error .metaNotObject
  else if data = .undef then .error .dataUndefined
  else if meta.isSome && !isBinaryOf data then .error .metaWithNonBinary
  else
    let isJson := isJsonOf data
    let isBinary := isBinaryOf data
    let buffer := bufferOf data
    let metaEncoded := metaJson meta
    let hasMeta := meta.isSome
    let chunkTotal := chunkTotalOf buffer.length hasMeta
    let typeBytesPadded :=
      typeBytes ++ List.replicate (typeByteLimit - typeBytes.length) 0
    let chunks := alloc chunkTotal
      (mkChunk typeBytesPadded nonce buffer metaEncoded hasMeta isBinary
        isJson chunkTotal)
    .ok (chunks, (nonce + 1) &&& oneByteMax)

/-- The progress values handed to the caller's `onProgress` by the delivery
loop (room.js lines 166-189) for one target that stays registered: one call
per fragment, in order, with `chunk[progressIndex] / oneByteMax`. We record
the raw progress byte (the fraction's numerator). -/
def senderProgressBytes (chunks : List Bytes) : List Nat :=
  chunks.map (fun c => c.getD progressIndex 0)

/-! ## Inbound handling and reassembly (room.js lines 202-255) -/

/-- One entry of the reassembly store: `{chunks: []}` with an optional
decoded `meta` (room.js line 224 and 227-230). -/
structure Target where
  chunks : List Bytes
  meta : Option Bytes
  deriving DecidableEq, Repr

/-- A reassembly key: `pendingTransmissions[id][type][nonce]`. Peer ids are
opaque; we use `Nat`. -/
abbrev Key := Nat × Bytes × Nat

/-- The reassembly store `pendingTransmissions`, flattened to an association
list over full keys (the nested-object structure of the source is
observationally the same store). -/
abbrev TransState := List (Key × Target)

/-- Lookup in the reassembly store. -/
def lookupKey (st : TransState) (k : Key) : Option Target :=
  match st with
  | [] => none
  | (k', t) :: rest => if k' = k then some t else lookupKey rest k

/-- Store (insert or overwrite) in the reassembly store. -/
def insertKey (st : TransState) (k : Key) (t : Target) : TransState :=
  match st with
  | [] => [(k, t)]
  | (k', t') :: rest =>
    if k' = k then (k, t) :: rest else (k', t') :: insertKey rest k t

/-- `delete pendingTransmissions[id][type][nonce]` (room.js line 247). -/
def eraseKey (st : TransState) (k : Key) : TransState :=
  match st with
  | [] => []
  | (k', t') :: rest => if k' = k then rest else (k', t') :: eraseKey rest k

/-- The value handed to the action's completion callback (room.js lines
249-254): raw bytes with metadata if the binary bit is set, otherwise the
decoded text, JSON-parsed if the JSON bit is set (no metadata argument in
the non-binary cases). -/
inductive Delivered
  | bin (bytes : Bytes) (meta : Option Bytes)
  | json (bytes : Bytes)
  | txt (bytes : Bytes)
  deriving DecidableEq, Repr

/-- The observable outcome of one `handleData` call: the updated reassembly
store, the argument pair of the `onProgress` invocation (raw progress byte
and the metadata known at that point, room.js line 232), and the completion
value if this frame was the last one. -/
structure HandleResult where
  state : TransState
  progress : Nat
  progressMeta : Option Bytes
  completed : Option Delivered
  deriving DecidableEq, Repr

/-- `handleData(id, data)` (room.js lines 202-255) for one peer `id` and one
inbound frame, against the set of registered action type names. Header
parsing: the 12-byte type field is decoded and NUL bytes removed
(`replaceAll('\x00', '')`); nonce, tag and progress are single bytes
(frames produced by `send` always have length ≥ `payloadIndex`, so the
default 0 of `getD` is never consulted for them); the payload is everything
from `payloadIndex` on. An unregistered type throws (`.error`). -/
def handleData (actions : List Bytes) (st : TransState) (id : Nat)
    (data : Bytes) : Except Unit HandleResult :=
  let buffer := data
  let type := stripNul (decodeBytes (buffer.take nonceIndex))
  let nonce := buffer.getD nonceIndex 0
  let tag := buffer.getD tagIndex 0
  let progress := buffer.getD progressIndex 0
  let payload := buffer.drop payloadIndex
  let isLast := Nat.testBit tag 0
  let isMeta := Nat.testBit tag 1
  let isBinary := Nat.testBit tag 2
  let isJson := Nat.testBit tag 3
  if type ∈ actions then
    let key : Key := (id, type, nonce)
    let target := (lookupKey st key).getD ⟨[], none⟩
    let target :=
      if isMeta then { target with meta := some (fromJson (decodeBytes payload)) }
      else { target with chunks := target.chunks ++ [payload] }
    if isLast then
      let full := target.chunks.flatten
      let delivered :=
        if isBinary then Delivered.bin full target.meta
        else if isJson then Delivered.json (fromJson (decodeBytes full))
        else Delivered.txt (decodeBytes full)
      .ok ⟨eraseKey st key, progress, target.meta, some delivered⟩
    else
      .ok ⟨insertKey st key target, progress, target.meta, none⟩
  else .error ()

/-- Accumulator for a run of inbound frames: reassembly store, the list of
`onProgress` argument pairs so far, and the completion values so far. -/
abbrev RunAcc := TransState × List (Nat × Option Bytes) × List Delivered

/-- Handling one inbound data event: a throw inside the data handler leaves
the store untouched and the event loop proceeds to the next event. -/
def handleStep (actions : List Bytes) (id : Nat) (acc : RunAcc)
    (data : Bytes) : RunAcc :=
  match handleData actions acc.1 id data with
  | .error _ => acc
  | .ok r => (r.state, acc.2.1 ++ [(r.progress, r.progressMeta)],
      acc.2.2 ++ r.completed.toList)

/-- Feeding a sequence of inbound frames from peer `id` to the handler, in
order, starting from store `st`. -/
def handleAll (actions : List Bytes) (st : TransState) (id : Nat)
    (frames : List Bytes) : RunAcc :=
  frames.foldl (handleStep actions id) (st, [], [])

/-! ## Action registration (room.js lines 62-95 and 257-262) -/

/-- The per-action state created by `makeAction` (room.js lines 87-95):
the private nonce counter (starting at 0) and the two callback slots,
initially `noOp`. Callbacks are identified by opaque slot values. -/
structure ActionEntry where
  nonce : Nat
  onComplete : Nat
  onProgress : Nat
  deriving DecidableEq, Repr

/-- The `noOp` callback from `utils.js`, as slot value 0. -/
def noOpId : Nat := 0

/-- The `actions` registry: association list from encoded type name to the
action's state, in registration order. -/
abbrev Registry := List (Bytes × ActionEntry)

/-- Errors thrown by `makeAction` (room.js lines 71-82). -/
inductive MakeErr
  | typeRequired
  | typeTooLong
  deriving DecidableEq, Repr

/-- `makeAction(type)` (room.js lines 62-200): if the type is already
registered, return the existing action's handles (memoization, checked
before validation); otherwise reject an empty name (`!type`) or a name whose
encoding exceeds `typeByteLimit` bytes, and otherwise register a fresh entry
with nonce 0 and `noOp` callbacks. The returned handle is the registry key
of the action whose `send`/`setOnComplete`/`setOnProgress` closures the
caller receives. -/
def makeAction (reg : Registry) (ty : Bytes) :
    Except MakeErr (Registry × Bytes) :=
  match lookupAction reg ty with
  | some _ => .ok (reg, ty)
  | none =>
    if ty = [] then .error .typeRequired
    else if typeByteLimit < (encodeBytes ty).length then .error .typeTooLong
    else .ok (reg ++ [(ty, ⟨0, noOpId, noOpId⟩)], ty)
where
  /-- `actions[type]` lookup. -/
  lookupAction : Registry → Bytes → Option ActionEntry
    | [], _ => none
    | (ty', e) :: rest, ty => if ty' = ty then some e else lookupAction rest ty

/-- `nonce = (nonce + 1) & oneByteMax` (room.js line 161). -/
def advanceNonce (n : Nat) : Nat := (n + 1) &&& oneByteMax

/-- The action's nonce after `k` `send` calls, starting from the fresh
counter value 0. -/
def nonceAfterSends (k : Nat) : Nat := advanceNonce^[k] 0

/-! ## The six internal control actions (room.js lines 257-262) -/

/-- `'__91n6__'` (ping), UTF-8. -/
def pingType : Bytes := [95, 95, 57, 49, 110, 54, 95, 95]

/-- `'__90n6__'` (pong), UTF-8. -/
def pongType : Bytes := [95, 95, 57, 48, 110, 54, 95, 95]

/-- `'__516n4L__'` (signal relay), UTF-8. -/
def signalType : Bytes := [95, 95, 53, 49, 54, 110, 52, 76, 95, 95]

/-- `'__57r34m__'` (stream metadata), UTF-8. -/
def streamMetaType : Bytes := [95, 95, 53, 55, 114, 51, 52, 109, 95, 95]

/-- `'__7r4ck__'` (track metadata), UTF-8. -/
def trackMetaType : Bytes := [95, 95, 55, 114, 52, 99, 107, 95, 95]

/-- `'__l34v3__'` (leave), UTF-8. -/
def leaveType : Bytes := [95, 95, 108, 51, 52, 118, 51, 95, 95]

/-- The six reserved internal action names, in registration order. -/
def internalTypes : List Bytes :=
  [pingType, pongType, signalType, streamMetaType, trackMetaType, leaveType]

/-- The registry after a registration attempt, keeping the old registry on a
throw. -/
def regAfter (reg : Registry) (ty : Bytes) : Registry :=
  match makeAction reg ty with
  | .ok (reg', _) => reg'
  | .error _ => reg

/-- The action registry of a fresh room, right after the six internal
`makeAction` calls (room.js lines 257-262). -/
def initialReg : Registry := internalTypes.foldl regAfter []

/-! ## `ping` argument validation (room.js lines 313-316) -/

/-- Whether a JS string-or-undefined value is falsy (`!id`): missing, or the
empty string. -/
def jsFalsyStr : Option Bytes → Bool
  | none => true
  | some [] => true
  | some (_ :: _) => false

/-- The synchronous validation prefix of `ping(id)` (room.js lines 313-316):
throws when called without a (truthy) target peer id. -/
def pingCheck (id : Option Bytes) : Except Unit Unit :=
  if jsFalsyStr id then .error () else .ok ()

/-! ## Numeric values of the constants -/

theorem typeByteLimit_eq : typeByteLimit = 12 := rfl

theorem nonceIndex_eq : nonceIndex = 12 := rfl

theorem tagIndex_eq : tagIndex = 13 := rfl

theorem progressIndex_eq : progressIndex = 14 := rfl

theorem payloadIndex_eq : payloadIndex = 15 := rfl

theorem chunkSize_eq : chunkSize = 16369 := rfl

theorem oneByteMax_eq : oneByteMax = 255 := rfl

/-! ## Infrastructure lemmas -/

/-- `setAt` writing `s` right after a prefix of length exactly the offset. -/
theorem setAt_append (pre post s : Bytes) :
    setAt (pre ++ post) s pre.length = pre ++ s ++ post.drop s.length := by
  unfold setAt
  rw [List.take_left, ← List.drop_drop, List.drop_left]

/-- The padded type field filtered back: stripping NUL bytes from
`typeBytes ++ padding` recovers `typeBytes` when the name has no NUL
bytes. -/
theorem stripNul_padded (typeBytes : Bytes) (h0 : ∀ b ∈ typeBytes, b ≠ 0)
    (n : Nat) :
    stripNul (typeBytes ++ List.replicate n 0) = typeBytes := by
  rw [stripNul, List.filter_append, List.filter_eq_self.mpr, List.filter_replicate]
  · simp
  · intro a ha
    simpa using h0 a ha

/-- Bit 0 of the tag byte is the last-fragment flag. -/
theorem tagByte_bit0 (a b c d : Bool) : Nat.testBit (tagByte a b c d) 0 = a := by
  cases a <;> cases b <;> cases c <;> cases d <;> decide

/-- Bit 1 of the tag byte is the carries-metadata flag. -/
theorem tagByte_bit1 (a b c d : Bool) : Nat.testBit (tagByte a b c d) 1 = b := by
  cases a <;> cases b <;> cases c <;> cases d <;> decide

/-- Bit 2 of the tag byte is the binary flag. -/
theorem tagByte_bit2 (a b c d : Bool) : Nat.testBit (tagByte a b c d) 2 = c := by
  cases a <;> cases b <;> cases c <;> cases d <;> decide

/-- Bit 3 of the tag byte is the JSON flag. -/
theorem tagByte_bit3 (a b c d : Bool) : Nat.testBit (tagByte a b c d) 3 = d := by
  cases a <;> cases b <;> cases c <;> cases d <;> decide

/-- The progress byte never exceeds 255 while the fragment index is in
range. -/
theorem progressByte_le (i total : Nat) (h : i < total) :
    progressByte i total ≤ oneByteMax := by
  rw [progressByte, oneByteMax_eq]
  have h1 : (i + 1) * 255 * 2 + total ≤ total * 511 := by omega
  have h2 : ((i + 1) * 255 * 2 + total) / (2 * total) ≤ total * 511 / (total * 2) := by
    rw [show total * 2 = 2 * total from by ring]
    exact Nat.div_le_div_right h1
  rw [Nat.mul_div_mul_left _ _ (show 0 < total from by omega)] at h2
  omega

/-- The progress bytes of one transmission are monotone in the fragment
index. -/
theorem progressByte_mono {i j : Nat} (total : Nat) (h : i ≤ j) :
    progressByte i total ≤ progressByte j total := by
  rw [progressByte, progressByte, oneByteMax_eq]
  apply Nat.div_le_div_right
  omega

/-- The progress byte of the final fragment is exactly 255. -/
theorem progressByte_last (total : Nat) (h : 0 < total) :
    progressByte (total - 1) total = oneByteMax := by
  rw [progressByte, oneByteMax_eq, show total - 1 + 1 = total from by omega,
    show total * 255 * 2 + total = total * 511 from by ring,
    show 2 * total = total * 2 from by ring,
    Nat.mul_div_mul_left _ _ h]

/-! ## Header parsing of a wire-form frame -/

/-- The type field of a wire-form frame. -/
theorem wire_take (T : Bytes) (hT : T.length = typeByteLimit)
    (nb tb pb : Nat) (payload : Bytes) :
    (T ++ nb :: tb :: pb :: payload).take nonceIndex = T := by
  rw [nonceIndex_eq, List.take_left' (by rw [hT, typeByteLimit_eq])]

/-- The nonce byte of a wire-form frame. -/
theorem wire_nonce (T : Bytes) (hT : T.length = typeByteLimit)
    (nb tb pb : Nat) (payload : Bytes) :
    (T ++ nb :: tb :: pb :: payload).getD nonceIndex 0 = nb := by
  rw [List.getD_eq_getElem?_getD, nonceIndex_eq,
    List.getElem?_append_right (by rw [hT, typeByteLimit_eq]), hT]
  simp [typeByteLimit_eq]

/-- The tag byte of a wire-form frame. -/
theorem wire_tag (T : Bytes) (hT : T.length = typeByteLimit)
    (nb tb pb : Nat) (payload : Bytes) :
    (T ++ nb :: tb :: pb :: payload).getD tagIndex 0 = tb := by
  rw [List.getD_eq_getElem?_getD, tagIndex_eq,
    List.getElem?_append_right (by rw [hT, typeByteLimit_eq]; omega), hT]
  simp [typeByteLimit_eq]

/-- The progress byte of a wire-form frame. -/
theorem wire_prog (T : Bytes) (hT : T.length = typeByteLimit)
    (nb tb pb : Nat) (payload : Bytes) :
    (T ++ nb :: tb :: pb :: payload).getD progressIndex 0 = pb := by
  rw [List.getD_eq_getElem?_getD, progressIndex_eq,
    List.getElem?_append_right (by rw [hT, typeByteLimit_eq]; omega), hT]
  simp [typeByteLimit_eq]

/-- The payload of a wire-form frame. -/
theorem wire_payload (T : Bytes) (hT : T.length = typeByteLimit)
    (nb tb pb : Nat) (payload : Bytes) :
    (T ++ nb :: tb :: pb :: payload).drop payloadIndex = payload := by
  rw [payloadIndex_eq, show (15 : Nat) = T.length + 3 from by
    rw [hT, typeByteLimit_eq], List.drop_append]
  rfl

/-! ## Frame layout: `mkChunk` builds a header followed by the payload -/

theorem setAt_zero (t s : Bytes) : setAt t s 0 = s ++ t.drop s.length := by
  simp [setAt]

theorem setAt_of_prefix {pre : Bytes} {off : Nat} (h : pre.length = off)
    (post s : Bytes) :
    setAt (pre ++ post) s off = pre ++ (s ++ post.drop s.length) := by
  subst h
  rw [setAt_append, List.append_assoc]

/-- The length of the payload slice of fragment `i` equals the payload part
of the allocated chunk size (room.js lines 129-137 vs 149-156 agree). -/
theorem length_payloadSliceOf (buffer metaEnc : Bytes) (hasMeta : Bool)
    {total i : Nat} (htotal : total = chunkTotalOf buffer.length hasMeta)
    (hi : i < total) :
    (payloadSliceOf buffer metaEnc hasMeta i).length =
      (if hasMeta && i == 0 then metaEnc.length
       else if i == total - 1 then
         buffer.length - chunkSize * (total - (if hasMeta then 2 else 1))
       else chunkSize) := by
  rw [chunkTotalOf] at htotal
  simp only [chunkSize_eq] at htotal ⊢
  simp only [payloadSliceOf, chunkSize_eq]
  cases hasMeta with
  | false =>
    simp only [Bool.false_and, Nat.add_zero, beq_iff_eq,
      List.length_take, List.length_drop] at htotal ⊢
    norm_num at htotal ⊢
    split_ifs with hit <;> split at htotal <;> omega
  | true =>
    simp only [Bool.true_and, beq_iff_eq, List.length_take,
      List.length_drop] at htotal ⊢
    norm_num at htotal ⊢
    by_cases hi0 : i = 0
    · simp [hi0]
    · simp only [hi0, if_false, List.length_take, List.length_drop]
      split_ifs with hit <;> omega

/-- Assembling a chunk by the five `chunk.set` writes produces exactly
header-then-payload. -/
theorem build_chunk (tp : Bytes) (htp : tp.length = 12) (nb tb pb : Nat)
    (pl : Bytes) :
    setAt (setAt (setAt (setAt (setAt (List.replicate (15 + pl.length) 0) tp 0)
      [nb] 12) [tb] 13) [pb] 14) pl 15 = tp ++ nb :: tb :: pb :: pl := by
  have d1 : (List.replicate (15 + pl.length) (0 : Nat)).drop tp.length =
      List.replicate (3 + pl.length) (0 : Nat) := by
    rw [htp, List.drop_replicate]
    congr 1
    omega
  rw [setAt_zero, d1, setAt_of_prefix htp]
  have d2 : (List.replicate (3 + pl.length) (0 : Nat)).drop (List.length [nb]) =
      List.replicate (2 + pl.length) (0 : Nat) := by
    rw [List.drop_replicate]
    congr 1
    simp
  rw [d2, ← List.append_assoc,
    setAt_of_prefix (show (tp ++ [nb]).length = 13 from by simp [htp])]
  have d3 : (List.replicate (2 + pl.length) (0 : Nat)).drop (List.length [tb]) =
      List.replicate (1 + pl.length) (0 : Nat) := by
    rw [List.drop_replicate]
    congr 1
    simp
  rw [d3, ← List.append_assoc,
    setAt_of_prefix (show ((tp ++ [nb]) ++ [tb]).length = 14 from by simp [htp])]
  have d4 : (List.replicate (1 + pl.length) (0 : Nat)).drop (List.length [pb]) =
      List.replicate pl.length (0 : Nat) := by
    rw [List.drop_replicate]
    congr 1
    simp
  rw [d4, ← List.append_assoc,
    setAt_of_prefix
      (show (((tp ++ [nb]) ++ [tb]) ++ [pb]).length = 15 from by simp [htp])]
  simp

/-- Every fragment built by `send` is exactly the 15-byte header followed by
its payload slice. -/
theorem mkChunk_eq (tp : Bytes) (htp : tp.length = typeByteLimit)
    (nonce : Nat) (buffer metaEnc : Bytes) (hasMeta isBinary isJson : Bool)
    {total i : Nat} (htotal : total = chunkTotalOf buffer.length hasMeta)
    (hi : i < total) :
    mkChunk tp nonce buffer metaEnc hasMeta isBinary isJson total i =
      tp ++ (nonce % (oneByteMax + 1)) ::
        tagByte (i == total - 1) (hasMeta && i == 0) isBinary isJson ::
        progressByte i total :: payloadSliceOf buffer metaEnc hasMeta i := by
  have hP := length_payloadSliceOf buffer metaEnc hasMeta htotal hi
  rw [typeByteLimit_eq] at htp
  simp only [mkChunk]
  rw [show typeIndex = 0 from rfl, nonceIndex_eq, tagIndex_eq,
    progressIndex_eq, payloadIndex_eq, ← hP, build_chunk tp htp]

/-! ## Receiver transitions on wire-form frames -/

/-- `handleData` on a frame of the wire form `header ++ payload`, with the
parsed fields substituted. -/
theorem handleData_wire (actions : List Bytes) (st : TransState) (id : Nat)
    (T : Bytes) (hT : T.length = typeByteLimit) (nb tb pb : Nat)
    (payload : Bytes) :
    handleData actions st id (T ++ nb :: tb :: pb :: payload) =
      (if stripNul T ∈ actions then
        let key : Key := (id, stripNul T, nb)
        let target := (lookupKey st key).getD ⟨[], none⟩
        let target :=
          if Nat.testBit tb 1 then { target with meta := some payload }
          else { target with chunks := target.chunks ++ [payload] }
        if Nat.testBit tb 0 then
          .ok ⟨eraseKey st key, pb, target.meta,
            some (if Nat.testBit tb 2 then
                Delivered.bin target.chunks.flatten target.meta
              else if Nat.testBit tb 3 then
                Delivered.json target.chunks.flatten
              else Delivered.txt target.chunks.flatten)⟩
        else .ok ⟨insertKey st key target, pb, target.meta, none⟩
      else .error ()) := by
  simp only [handleData, decodeBytes, fromJson,
    wire_take T hT nb tb pb payload, wire_nonce T hT nb tb pb payload,
    wire_tag T hT nb tb pb payload, wire_prog T hT nb tb pb payload,
    wire_payload T hT nb tb pb payload]

theorem lookupKey_single (k : Key) (t : Target) :
    lookupKey [(k, t)] k = some t := by
  simp [lookupKey]

theorem insertKey_single (k : Key) (t0 t : Target) :
    insertKey [(k, t0)] k t = [(k, t)] := by
  simp [insertKey]

theorem eraseKey_single (k : Key) (t : Target) : eraseKey [(k, t)] k = [] := by
  simp [eraseKey]

/-- One inbound non-final frame whose action is registered: the reassembly
entry is created/extended and one progress event fires. -/
theorem handleStep_nonlast (actions : List Bytes) (id : Nat) (st : TransState)
    (T : Bytes) (hT : T.length = typeByteLimit)
    (hty : stripNul T ∈ actions)
    (nb tb pb : Nat) (payload : Bytes) (cs0 : List Bytes) (m0 : Option Bytes)
    (pe : List (Nat × Option Bytes)) (dv : List Delivered)
    (h0 : Nat.testBit tb 0 = false)
    (hlk : (lookupKey st (id, stripNul T, nb)).getD ⟨[], none⟩ =
      ⟨cs0, m0⟩)
    (hins : ∀ t, insertKey st (id, stripNul T, nb) t =
      [((id, stripNul T, nb), t)]) :
    handleStep actions id (st, pe, dv) (T ++ nb :: tb :: pb :: payload) =
      (if Nat.testBit tb 1 then
        ([((id, stripNul T, nb), ⟨cs0, some payload⟩)],
          pe ++ [(pb, some payload)], dv)
      else
        ([((id, stripNul T, nb), ⟨cs0 ++ [payload], m0⟩)],
          pe ++ [(pb, m0)], dv)) := by
  by_cases h1 : Nat.testBit tb 1 <;>
    simp [handleStep, handleData_wire actions st id T hT nb tb pb payload,
      hty, hlk, hins, h0, h1]

/-- One inbound final frame whose action is registered, from a store whose
only possible entry is this transmission's: the entry is dropped, one
progress event fires, and the completion value is dispatched. -/
theorem handleStep_last (actions : List Bytes) (id : Nat) (st : TransState)
    (T : Bytes) (hT : T.length = typeByteLimit)
    (hty : stripNul T ∈ actions)
    (nb tb pb : Nat) (payload : Bytes) (cs0 : List Bytes) (m0 : Option Bytes)
    (pe : List (Nat × Option Bytes)) (dv : List Delivered)
    (h0 : Nat.testBit tb 0 = true)
    (hlk : (lookupKey st (id, stripNul T, nb)).getD ⟨[], none⟩ =
      ⟨cs0, m0⟩)
    (hers : eraseKey st (id, stripNul T, nb) = [])
    (M : Option Bytes) (csF : List Bytes)
    (hM : M = if Nat.testBit tb 1 then some payload else m0)
    (hcs : csF = if Nat.testBit tb 1 then cs0 else cs0 ++ [payload]) :
    handleStep actions id (st, pe, dv) (T ++ nb :: tb :: pb :: payload) =
      ([], pe ++ [(pb, M)],
        dv ++ [if Nat.testBit tb 2 then Delivered.bin csF.flatten M
          else if Nat.testBit tb 3 then Delivered.json csF.flatten
          else Delivered.txt csF.flatten]) := by
  subst hM hcs
  by_cases h1 : Nat.testBit tb 1 <;>
    simp [handleStep, handleData_wire actions st id T hT nb tb pb payload,
      hty, hlk, hers, h0, h1]

/-- Feeding a run of non-final, non-metadata frames of one transmission:
the payload slices accumulate in order and one progress event fires per
frame. -/
theorem run_nonlast (actions : List Bytes) (id : Nat) (T : Bytes)
    (hT : T.length = typeByteLimit)
    (hty : stripNul T ∈ actions) (nb : Nat)
    (idxs : List Nat) (tagf progf : Nat → Nat) (slicef : Nat → Bytes)
    (htags : ∀ i ∈ idxs, Nat.testBit (tagf i) 0 = false ∧
      Nat.testBit (tagf i) 1 = false)
    (cs0 : List Bytes) (m0 : Option Bytes) (pe : List (Nat × Option Bytes))
    (dv : List Delivered) :
    List.foldl (handleStep actions id)
        ([((id, stripNul T, nb), ⟨cs0, m0⟩)], pe, dv)
        (idxs.map (fun i => T ++ nb :: tagf i :: progf i :: slicef i)) =
      ([((id, stripNul T, nb), ⟨cs0 ++ idxs.map slicef, m0⟩)],
        pe ++ idxs.map (fun i => (progf i, m0)), dv) := by
  induction idxs generalizing cs0 pe with
  | nil => simp
  | cons i rest ih =>
    obtain ⟨hb0, hb1⟩ := htags i (by simp)
    rw [List.map_cons, List.foldl_cons,
      handleStep_nonlast actions id _ T hT hty nb (tagf i) (progf i)
        (slicef i) cs0 m0 pe dv hb0
        (by simp [lookupKey_single])
        (fun t => insertKey_single _ _ t)]
    rw [if_neg (by simp [hb1])]
    rw [ih (fun j hj => htags j (by simp [hj])) (cs0 ++ [slicef i])
      (pe ++ [(progf i, m0)])]
    simp

/-! ## Reassembling the payload slices -/

/-- Concatenating the first `k` fixed-size slices of a buffer gives its
first `k * chunkSize` bytes. -/
theorem flatten_slices (l : Bytes) (k : Nat) :
    ((List.range k).map
      (fun i => (l.drop (i * chunkSize)).take chunkSize)).flatten =
      l.take (k * chunkSize) := by
  induction k with
  | zero => simp
  | succ n ih =>
    rw [List.range_succ, List.map_append, List.flatten_append, ih]
    simp only [List.map_cons, List.map_nil, List.flatten_cons,
      List.flatten_nil, List.append_nil]
    rw [← List.take_add, Nat.succ_mul, Nat.add_comm (n * chunkSize) chunkSize,
      Nat.add_comm chunkSize (n * chunkSize)]

/-- All slices of a buffer, concatenated, give back the buffer, length
permitting. -/
theorem flatten_slices_all (l : Bytes) (k : Nat) (h : l.length ≤ k * chunkSize) :
    ((List.range k).map
      (fun i => (l.drop (i * chunkSize)).take chunkSize)).flatten = l := by
  rw [flatten_slices, List.take_of_length_le h]

/-- The meta-shifted slices over indices `1 .. k` are the plain slices over
`0 .. k-1`. -/
theorem range'_shift_slices (l : Bytes) (k : Nat) :
    (List.range' 1 k).map
        (fun i => (l.drop ((i - 1) * chunkSize)).take chunkSize) =
      (List.range k).map (fun i => (l.drop (i * chunkSize)).take chunkSize) := by
  rw [List.range_eq_range', show (1 : Nat) = 1 + 0 from rfl,
    ← List.map_add_range' 1 0 k 1, List.map_map]
  apply List.map_congr_left
  intro a _
  simp

/-- The value the completion callback receives, determined by the data
classification bits (room.js lines 249-254 together with lines 108-111). -/
def deliveredOf (data : JSData) (M : Option Bytes) : Delivered :=
  match data with
  | .bin b => .bin b M
  | .str s => .txt s
  | .other j => .json j
  | .undef => .txt []

theorem deliveredOf_eq (data : JSData) (hdata : data ≠ .undef)
    (M : Option Bytes) :
    (if isBinaryOf data then Delivered.bin (bufferOf data) M
     else if isJsonOf data then Delivered.json (bufferOf data)
     else Delivered.txt (bufferOf data)) = deliveredOf data M := by
  cases data <;>
    simp [isBinaryOf, isJsonOf, bufferOf, deliveredOf, encodeBytes, toJson] at hdata ⊢

/-! ## Facts about the fragment count -/

theorem chunkTotalOf_pos (L : Nat) (m : Bool) : 0 < chunkTotalOf L m := by
  cases m <;>
    simp only [chunkTotalOf, chunkSize_eq, Bool.false_eq_true, if_true,
      if_false, Nat.add_zero] <;>
    split <;> omega

/-- The payload fragments cover the whole buffer. -/
theorem chunkTotalOf_le (L : Nat) (m : Bool) :
    L ≤ (chunkTotalOf L m - (if m then 1 else 0)) * chunkSize := by
  cases m <;>
    simp only [chunkTotalOf, chunkSize_eq, Bool.false_eq_true, if_true,
      if_false, Nat.add_zero] <;>
    split <;> omega

theorem chunkTotalOf_one_nometa (L : Nat) (h : chunkTotalOf L false = 1) :
    L ≤ chunkSize := by
  simp only [chunkTotalOf, chunkSize_eq, Bool.false_eq_true, if_false,
    Nat.add_zero] at h
  rw [chunkSize_eq]
  split at h <;> omega

theorem chunkTotalOf_one_meta (L : Nat) (h : chunkTotalOf L true = 1) :
    L = 0 := by
  simp only [chunkTotalOf, chunkSize_eq, if_true] at h
  split at h <;> omega

/-- Fragment indices of a transmission with at least two fragments: the
first, the middle ones, and the last. -/
theorem range_decomp (t : Nat) :
    List.range (t + 2) = 0 :: (List.range' 1 t ++ [t + 1]) := by
  rw [List.range_eq_range', List.range'_succ, List.range'_1_concat,
    Nat.add_comm 1 t]

/-- A complete transmission without metadata, received in order from a fresh
store: one progress event per fragment (with no metadata known) and a single
completion carrying the reassembled buffer. -/
theorem run_frames_nometa (actions : List Bytes) (T : Bytes)
    (hT : T.length = typeByteLimit) (hty : stripNul T ∈ actions)
    (id nb : Nat) (bin js : Bool) (B : Bytes) (total : Nat)
    (htotal : total = chunkTotalOf B.length false) :
    handleAll actions [] id ((List.range total).map (fun i =>
      T ++ nb :: tagByte (i == total - 1) false bin js ::
        progressByte i total :: payloadSliceOf B [] false i)) =
      ([], (List.range total).map
          (fun i => (progressByte i total, (none : Option Bytes))),
        [if bin then Delivered.bin B none
         else if js then Delivered.json B else Delivered.txt B]) := by
  have hpos : 0 < total := htotal ▸ chunkTotalOf_pos _ _
  by_cases h1 : total = 1
  · subst h1
    have hB : B.length ≤ chunkSize := chunkTotalOf_one_nometa _ htotal.symm
    have hpl : payloadSliceOf B [] false 0 = B := by
      simp [payloadSliceOf, List.take_of_length_le hB]
    rw [show List.range 1 = [0] from rfl]
    simp only [List.map_cons, List.map_nil]
    rw [handleAll, List.foldl_cons, List.foldl_nil,
      handleStep_last actions id [] T hT hty nb
        (tagByte (0 == 1 - 1) false bin js) (progressByte 0 1)
        (payloadSliceOf B [] false 0) [] none [] []
        (by rw [tagByte_bit0]; decide) rfl rfl
        none [payloadSliceOf B [] false 0]
        (by rw [tagByte_bit1]; simp) (by rw [tagByte_bit1]; simp)]
    simp [tagByte_bit2, tagByte_bit3, hpl]
  · obtain ⟨t, rfl⟩ : ∃ t, total = t + 2 := ⟨total - 2, by omega⟩
    have hB : B.length ≤ (t + 2) * chunkSize := by
      have h := chunkTotalOf_le B.length false
      rw [← htotal] at h
      simpa using h
    have htags : ∀ i ∈ List.range' 1 t,
        Nat.testBit (tagByte (i == t + 1) false bin js) 0 = false ∧
        Nat.testBit (tagByte (i == t + 1) false bin js) 1 = false := by
      intro i hi
      rw [List.mem_range'_1] at hi
      exact ⟨by rw [tagByte_bit0]; exact beq_eq_false_iff_ne.mpr (by omega),
        tagByte_bit1 _ _ _ _⟩
    rw [range_decomp t]
    simp only [List.map_cons, List.map_append, List.map_nil,
      show t + 2 - 1 = t + 1 from rfl]
    rw [handleAll, List.foldl_cons, List.foldl_append,
      handleStep_nonlast actions id [] T hT hty nb
        (tagByte (0 == t + 1) false bin js) (progressByte 0 (t + 2))
        (payloadSliceOf B [] false 0) [] none [] []
        (by rw [tagByte_bit0]; rfl) rfl (fun _ => rfl)]
    rw [if_neg (by rw [tagByte_bit1]; exact Bool.false_ne_true)]
    simp only [List.nil_append]
    rw [run_nonlast actions id T hT hty nb (List.range' 1 t)
      (fun i => tagByte (i == t + 1) false bin js)
      (fun i => progressByte i (t + 2))
      (fun i => payloadSliceOf B [] false i) htags
      [payloadSliceOf B [] false 0] none
      [(progressByte 0 (t + 2), none)] []]
    rw [List.foldl_cons, List.foldl_nil,
      handleStep_last actions id _ T hT hty nb
        (tagByte (t + 1 == t + 1) false bin js) (progressByte (t + 1) (t + 2))
        (payloadSliceOf B [] false (t + 1))
        ([payloadSliceOf B [] false 0] ++
          (List.range' 1 t).map (fun i => payloadSliceOf B [] false i)) none
        _ []
        (by rw [tagByte_bit0]; simp) (by rw [lookupKey_single]; rfl)
        (eraseKey_single _ _)
        none
        (([payloadSliceOf B [] false 0] ++
          (List.range' 1 t).map (fun i => payloadSliceOf B [] false i)) ++
          [payloadSliceOf B [] false (t + 1)])
        (by rw [tagByte_bit1]; simp) (by rw [tagByte_bit1]; simp)]
    have hflat : (([payloadSliceOf B [] false 0] ++
        (List.range' 1 t).map (fun i => payloadSliceOf B [] false i)) ++
          [payloadSliceOf B [] false (t + 1)]).flatten = B := by
      rw [show ([payloadSliceOf B [] false 0] ++
          (List.range' 1 t).map (fun i => payloadSliceOf B [] false i)) ++
            [payloadSliceOf B [] false (t + 1)] =
          (List.range (t + 2)).map (fun i => payloadSliceOf B [] false i) from by
        rw [range_decomp t]; simp]
      rw [List.map_congr_left
        (fun i _ => by simp [payloadSliceOf] :
          ∀ i ∈ List.range (t + 2), payloadSliceOf B [] false i =
            (B.drop (i * chunkSize)).take chunkSize)]
      exact flatten_slices_all B (t + 2) hB
    rw [hflat]
    simp [tagByte_bit2, tagByte_bit3]

/-- A complete transmission with metadata, received in order from a fresh
store: the leading metadata fragment stores the decoded metadata, every
progress event carries it, and the single completion carries the reassembled
buffer together with the metadata. -/
theorem run_frames_meta (actions : List Bytes) (T : Bytes)
    (hT : T.length = typeByteLimit) (hty : stripNul T ∈ actions)
    (id nb : Nat) (bin js : Bool) (B ME : Bytes) (total : Nat)
    (htotal : total = chunkTotalOf B.length true) :
    handleAll actions [] id ((List.range total).map (fun i =>
      T ++ nb :: tagByte (i == total - 1) (i == 0) bin js ::
        progressByte i total :: payloadSliceOf B ME true i)) =
      ([], (List.range total).map
          (fun i => (progressByte i total, some ME)),
        [if bin then Delivered.bin B (some ME)
         else if js then Delivered.json B else Delivered.txt B]) := by
  have hpos : 0 < total := htotal ▸ chunkTotalOf_pos _ _
  by_cases h1 : total = 1
  · subst h1
    have hB : B = [] :=
      List.eq_nil_of_length_eq_zero (chunkTotalOf_one_meta _ htotal.symm)
    subst hB
    have hpl : payloadSliceOf [] ME true 0 = ME := by simp [payloadSliceOf]
    rw [show List.range 1 = [0] from rfl]
    simp only [List.map_cons, List.map_nil]
    rw [handleAll, List.foldl_cons, List.foldl_nil,
      handleStep_last actions id [] T hT hty nb
        (tagByte (0 == 1 - 1) (0 == 0) bin js) (progressByte 0 1)
        (payloadSliceOf [] ME true 0) [] none [] []
        (by rw [tagByte_bit0]; decide) rfl rfl
        (some (payloadSliceOf [] ME true 0)) []
        (by rw [tagByte_bit1]; rfl) (by rw [tagByte_bit1]; rfl)]
    simp [tagByte_bit2, tagByte_bit3, hpl]
  · obtain ⟨t, rfl⟩ : ∃ t, total = t + 2 := ⟨total - 2, by omega⟩
    have hB : B.length ≤ (t + 1) * chunkSize := by
      have h := chunkTotalOf_le B.length true
      rw [← htotal] at h
      simpa using h
    have htags : ∀ i ∈ List.range' 1 t,
        Nat.testBit (tagByte (i == t + 1) (i == 0) bin js) 0 = false ∧
        Nat.testBit (tagByte (i == t + 1) (i == 0) bin js) 1 = false := by
      intro i hi
      rw [List.mem_range'_1] at hi
      exact ⟨by rw [tagByte_bit0]; exact beq_eq_false_iff_ne.mpr (by omega),
        by rw [tagByte_bit1]; exact beq_eq_false_iff_ne.mpr (by omega)⟩
    rw [range_decomp t]
    simp only [List.map_cons, List.map_append, List.map_nil,
      show t + 2 - 1 = t + 1 from rfl]
    rw [handleAll, List.foldl_cons, List.foldl_append,
      handleStep_nonlast actions id [] T hT hty nb
        (tagByte (0 == t + 1) (0 == 0) bin js) (progressByte 0 (t + 2))
        (payloadSliceOf B ME true 0) [] none [] []
        (by rw [tagByte_bit0]; rfl) rfl (fun _ => rfl)]
    rw [if_pos (show Nat.testBit (tagByte (0 == t + 1) (0 == 0) bin js) 1 = true from by rw [tagByte_bit1]; rfl)]
    simp only [List.nil_append]
    have hpl0 : payloadSliceOf B ME true 0 = ME := by simp [payloadSliceOf]
    rw [hpl0]
    rw [run_nonlast actions id T hT hty nb (List.range' 1 t)
      (fun i => tagByte (i == t + 1) (i == 0) bin js)
      (fun i => progressByte i (t + 2))
      (fun i => payloadSliceOf B ME true i) htags
      [] (some ME) [(progressByte 0 (t + 2), some ME)] []]
    rw [List.foldl_cons, List.foldl_nil,
      handleStep_last actions id _ T hT hty nb
        (tagByte (t + 1 == t + 1) (t + 1 == 0) bin js)
        (progressByte (t + 1) (t + 2)) (payloadSliceOf B ME true (t + 1))
        ([] ++ (List.range' 1 t).map (fun i => payloadSliceOf B ME true i))
        (some ME) _ []
        (by rw [tagByte_bit0]; simp) (by rw [lookupKey_single]; rfl)
        (eraseKey_single _ _)
        (some ME)
        (([] ++ (List.range' 1 t).map (fun i => payloadSliceOf B ME true i)) ++
          [payloadSliceOf B ME true (t + 1)])
        (by rw [tagByte_bit1]; rfl) (by rw [tagByte_bit1]; rfl)]
    have hflat : (([] ++
        (List.range' 1 t).map (fun i => payloadSliceOf B ME true i)) ++
          [payloadSliceOf B ME true (t + 1)]).flatten = B := by
      simp only [List.nil_append]
      rw [show (List.range' 1 t).map (fun i => payloadSliceOf B ME true i) ++
          [payloadSliceOf B ME true (t + 1)] =
          (List.range' 1 (t + 1)).map
            (fun i => payloadSliceOf B ME true i) from by
        rw [List.range'_1_concat, Nat.add_comm 1 t]
        simp]
      rw [List.map_congr_left
        (fun i hi => by
          rw [List.mem_range'_1] at hi
          simp [payloadSliceOf, show ¬i = 0 from by omega] :
          ∀ i ∈ List.range' 1 (t + 1), payloadSliceOf B ME true i =
            (B.drop ((i - 1) * chunkSize)).take chunkSize)]
      rw [range'_shift_slices]
      exact flatten_slices_all B (t + 1) hB
    rw [hflat]
    simp [tagByte_bit2, tagByte_bit3]

/-- Inversion of a successful `send`: the validation conditions hold and
the outputs are the fragment list and advanced nonce. -/
theorem sendFrames_ok (typeBytes : Bytes) (nonce : Nat) (data : JSData)
    (meta : Option JSMeta) (chunks : List Bytes) (n' : Nat)
    (h : sendFrames typeBytes nonce data meta = .ok (chunks, n')) :
    meta ≠ some .nonObj ∧ data ≠ .undef ∧
      (meta.isSome && !isBinaryOf data) = false ∧
      chunks = alloc (chunkTotalOf (bufferOf data).length meta.isSome)
        (mkChunk
          (typeBytes ++ List.replicate (typeByteLimit - typeBytes.length) 0)
          nonce (bufferOf data) (metaJson meta) meta.isSome (isBinaryOf data)
          (isJsonOf data)
          (chunkTotalOf (bufferOf data).length meta.isSome)) ∧
      n' = (nonce + 1) &&& oneByteMax := by
  rw [sendFrames] at h
  split_ifs at h with hA hB hC
  have h2 := Except.ok.inj h
  refine ⟨hA, hB, ?_, (congrArg Prod.fst h2).symm,
    (congrArg Prod.snd h2).symm⟩
  revert hC
  cases (meta.isSome && !isBinaryOf data) <;> simp

/-- The round-trip law in full: the frames of one successful `send` call,
fed in order to a receiver with the same action registered, starting from a
fresh reassembly store, leave the store empty, fire one progress event per
frame, and complete exactly once with the expected value. -/
theorem transmission_run (actions : List Bytes) (typeBytes : Bytes)
    (h0 : ∀ b ∈ typeBytes, b ≠ 0) (hlen : typeBytes.length ≤ typeByteLimit)
    (hreg : typeBytes ∈ actions) (id nonce : Nat) (data : JSData)
    (meta : Option JSMeta) (chunks : List Bytes) (n' : Nat)
    (hsend : sendFrames typeBytes nonce data meta = .ok (chunks, n')) :
    handleAll actions [] id chunks =
      ([],
        (List.range (chunkTotalOf (bufferOf data).length meta.isSome)).map
          (fun i =>
            (progressByte i (chunkTotalOf (bufferOf data).length meta.isSome),
              if meta.isSome then some (metaJson meta) else none)),
        [deliveredOf data
          (if meta.isSome then some (metaJson meta) else none)]) := by
  have hT : (typeBytes ++
      List.replicate (typeByteLimit - typeBytes.length) 0).length =
      typeByteLimit := by
    simp only [List.length_append, List.length_replicate]
    omega
  have hstrip : stripNul (typeBytes ++
      List.replicate (typeByteLimit - typeBytes.length) 0) = typeBytes :=
    stripNul_padded typeBytes h0 _
  have htyA : stripNul (typeBytes ++
      List.replicate (typeByteLimit - typeBytes.length) 0) ∈ actions := by
    rw [hstrip]
    exact hreg
  obtain ⟨hA, hB, hC, hc, hn⟩ :=
    sendFrames_ok typeBytes nonce data meta chunks n' hsend
  subst hc
  simp only [alloc]
  cases meta with
    | none =>
      simp only [Option.isSome_none, Bool.false_eq_true, if_false]
      rw [List.map_congr_left (fun i hi =>
        mkChunk_eq _ hT nonce (bufferOf data) (metaJson none) false
          (isBinaryOf data) (isJsonOf data) rfl (List.mem_range.mp hi))]
      simp only [Bool.false_and, show metaJson none = ([] : Bytes) from rfl]
      rw [run_frames_nometa actions _ hT htyA id _ (isBinaryOf data)
        (isJsonOf data) (bufferOf data) _ rfl]
      rw [deliveredOf_eq data hB none]
    | some m =>
      cases m with
      | nonObj => exact absurd rfl hA
      | obj j =>
        have hbin : isBinaryOf data = true := by
          simpa using hC
        obtain ⟨b, rfl⟩ : ∃ b, data = .bin b := by
          cases data <;> simp [isBinaryOf] at hbin ⊢
        simp only [Option.isSome_some, if_true, metaJson, encodeBytes, toJson,
          isBinaryOf, isJsonOf, bufferOf]
        rw [List.map_congr_left (fun i hi =>
          mkChunk_eq _ hT nonce b j true true true rfl
            (List.mem_range.mp hi))]
        simp only [Bool.true_and]
        rw [run_frames_meta actions _ hT htyA id _ true true b j _ rfl]
        simp [deliveredOf]

/-! ## Registry well-formedness and lookup lemmas -/

/-- A registry in which every entry was admitted by `makeAction`: nonempty
names within the byte budget. Every reachable registry of a room satisfies
this. -/
def WFRegistry (reg : Registry) : Prop :=
  ∀ p ∈ reg, p.1 ≠ [] ∧ (encodeBytes p.1).length ≤ typeByteLimit

theorem lookupAction_eq_none (reg : Registry) (ty : Bytes)
    (h : ∀ p ∈ reg, p.1 ≠ ty) : makeAction.lookupAction reg ty = none := by
  induction reg with
  | nil => rfl
  | cons p rest ih =>
    rw [makeAction.lookupAction]
    rw [if_neg (h p (by simp))]
    exact ih (fun q hq => h q (by simp [hq]))

theorem lookupAction_append_of_none (reg : Registry) (ty : Bytes)
    (e : ActionEntry) (h : makeAction.lookupAction reg ty = none) :
    makeAction.lookupAction (reg ++ [(ty, e)]) ty = some e := by
  induction reg with
  | nil => simp [makeAction.lookupAction]
  | cons p rest ih =>
    rw [makeAction.lookupAction] at h
    rw [List.cons_append, makeAction.lookupAction]
    split at h
    · exact absurd h (by simp)
    · next hne => rw [if_neg hne]; exact ih h

theorem land_oneByteMax_eq_mod (n : Nat) :
    n &&& oneByteMax = n % (oneByteMax + 1) := by
  rw [oneByteMax_eq, show (255 : Nat) + 1 = 256 from rfl]
  have h := Nat.and_pow_two_sub_one_eq_mod n 8
  norm_num at h
  exact h

theorem advanceNonce_eq (n : Nat) :
    advanceNonce n = (n + 1) % (oneByteMax + 1) := by
  rw [advanceNonce, land_oneByteMax_eq_mod]

theorem nonceAfterSends_eq (k : Nat) :
    nonceAfterSends k = k % (oneByteMax + 1) := by
  induction k with
  | zero => rfl
  | succ n ih =>
    rw [nonceAfterSends, Function.iterate_succ_apply',
      show advanceNonce^[n] 0 = nonceAfterSends n from rfl, ih,
      advanceNonce_eq, oneByteMax_eq]
    omega

theorem chunkTotalOf_eq_max (L : Nat) (m : Bool) :
    chunkTotalOf L m =
      max ((L + chunkSize - 1) / chunkSize + (if m then 1 else 0)) 1 := by
  cases m
  · show (if (L + 16369 - 1) / 16369 + 0 = 0 then 1
        else (L + 16369 - 1) / 16369 + 0) =
      max ((L + 16369 - 1) / 16369 + 0) 1
    rw [Nat.max_def]
    split <;> split <;> omega
  · show (if (L + 16369 - 1) / 16369 + 1 = 0 then 1
        else (L + 16369 - 1) / 16369 + 1) =
      max ((L + 16369 - 1) / 16369 + 1) 1
    rw [Nat.max_def]
    split <;> split <;> omega

/-! ## The claims -/

/-- C4: Each action holds a private 1-byte sequence counter starting at 0
(`makeAction` registers a fresh entry with nonce 0); every frame of one
`send` call carries the counter's current value (reduced by the Uint8Array
byte coercion) as its nonce byte; the counter is advanced by exactly 1
modulo 256 immediately after fragmenting; hence the nonces of successive
`send` calls are consecutive mod 256 and the counter wraps to 0 after 256
sends. -/
theorem C4_nonce_counter :
    (∀ (typeBytes : Bytes), typeBytes.length ≤ typeByteLimit →
      ∀ (nonce : Nat) (data : JSData) (meta : Option JSMeta)
        (chunks : List Bytes) (n' : Nat),
      sendFrames typeBytes nonce data meta = .ok (chunks, n') →
        (∀ c ∈ chunks, c.getD nonceIndex 0 = nonce % (oneByteMax + 1)) ∧
        n' = (nonce + 1) % (oneByteMax + 1)) ∧
    (∀ (reg : Registry) (ty : Bytes),
      makeAction.lookupAction reg ty = none → ty ≠ [] →
      (encodeBytes ty).length ≤ typeByteLimit →
      makeAction reg ty = .ok (reg ++ [(ty, ⟨0, noOpId, noOpId⟩)], ty)) ∧
    (∀ k, nonceAfterSends k = k % (oneByteMax + 1)) ∧
    nonceAfterSends 256 = 0 := by
  refine ⟨?_, ?_, nonceAfterSends_eq, by rw [nonceAfterSends_eq]; rfl⟩
  · intro typeBytes hlen nonce data meta chunks n' hsend
    obtain ⟨hA, hB, hC, hc, hn⟩ :=
      sendFrames_ok typeBytes nonce data meta chunks n' hsend
    subst hc
    have hT : (typeBytes ++
        List.replicate (typeByteLimit - typeBytes.length) 0).length =
        typeByteLimit := by
      simp only [List.length_append, List.length_replicate]
      omega
    refine ⟨?_, by rw [hn, land_oneByteMax_eq_mod]⟩
    intro c hc
    simp only [alloc, List.mem_map, List.mem_range] at hc
    obtain ⟨i, hi, rfl⟩ := hc
    rw [mkChunk_eq _ hT nonce _ _ _ _ _ rfl hi, wire_nonce _ hT]
  · intro reg ty hnone hne hlen
    rw [makeAction, hnone]
    rw [if_neg hne, if_neg (by omega)]

/-- C4 witness: a concrete send with counter value 255 stamps 255 into every
frame and wraps the counter to 0. -/
theorem C4_nonce_counter_witness :
    ((∀ c ∈ [[97, 0, 0, 0, 0, 0, 0, 0, 0, 0, 0, 0, 255, 1, 255, 104]],
        List.getD c nonceIndex 0 = 255 % (oneByteMax + 1)) ∧
      (0 : Nat) = (255 + 1) % (oneByteMax + 1)) ∧
    makeAction [] [97] = .ok ([([97], ⟨0, noOpId, noOpId⟩)], [97]) ∧
    nonceAfterSends 256 = 0 :=
  ⟨C4_nonce_counter.1 [97] (by decide) 255 (JSData.str [104]) none
      [[97, 0, 0, 0, 0, 0, 0, 0, 0, 0, 0, 0, 255, 1, 255, 104]] 0 rfl,
    by
      have h := C4_nonce_counter.2.1 [] [97] rfl (by decide) (by decide)
      simpa using h,
    C4_nonce_counter.2.2.2⟩

/-- C5: `makeAction` throws for an empty name and for a name whose encoding
exceeds 12 bytes (on any registry reachable through `makeAction`, i.e. any
well-formed registry), and memoizes: a second call with the same name
returns the same registry and the same handle, creating no new state. -/
theorem C5_makeAction_memo :
    (∀ reg : Registry, WFRegistry reg →
      makeAction reg [] = .error .typeRequired) ∧
    (∀ (reg : Registry) (ty : Bytes), WFRegistry reg →
      typeByteLimit < (encodeBytes ty).length →
      makeAction reg ty = .error .typeTooLong) ∧
    (∀ (reg reg' : Registry) (ty h : Bytes),
      makeAction reg ty = .ok (reg', h) →
      makeAction reg' ty = .ok (reg', h)) := by
  refine ⟨?_, ?_, ?_⟩
  · intro reg hwf
    simp only [makeAction,
      lookupAction_eq_none reg [] (fun p hp => (hwf p hp).1)]
    rfl
  · intro reg ty hwf hlong
    simp only [makeAction,
      lookupAction_eq_none reg ty (fun p hp => by
        intro hcon
        have := (hwf p hp).2
        rw [hcon] at this
        simp only [encodeBytes] at this hlong
        omega)]
    rw [if_neg (by
      intro hcon
      rw [hcon] at hlong
      simp [encodeBytes] at hlong), if_pos hlong]
  · intro reg reg' ty h hmk
    rw [makeAction] at hmk
    cases hl : makeAction.lookupAction reg ty with
    | some e =>
      rw [hl] at hmk
      obtain ⟨h1, h2⟩ := Prod.mk.injEq .. ▸ Except.ok.inj hmk
      subst h1 h2
      rw [makeAction, hl]
    | none =>
      rw [hl] at hmk
      split_ifs at hmk with h1 h2
      obtain ⟨h3, h4⟩ := Prod.mk.injEq .. ▸ Except.ok.inj hmk
      subst h3 h4
      rw [makeAction, lookupAction_append_of_none reg ty _ hl]

/-- C5 witness: memoization on the initial registry; a second registration
of the ping control action returns the same registry and handle, and the
two error cases fire on the initial registry. -/
theorem C5_makeAction_memo_witness :
    makeAction initialReg [] = .error .typeRequired ∧
    makeAction initialReg [97, 97, 97, 97, 97, 97, 97, 97, 97, 97, 97, 97, 97]
      = .error .typeTooLong ∧
    makeAction initialReg pingType = .ok (initialReg, pingType) :=
  ⟨C5_makeAction_memo.1 initialReg (by unfold WFRegistry; decide),
    C5_makeAction_memo.2.1 initialReg _ (by unfold WFRegistry; decide) (by decide),
    C5_makeAction_memo.2.2 initialReg initialReg pingType pingType rfl⟩

/-- C6: `send` rejects a non-object metadata argument, undefined data, and
metadata combined with non-binary data (string or JSON-serialized values);
`ping` rejects a missing or empty target peer id. All are surfaced as
errors raised before any frame is built. -/
theorem C6_caller_errors :
    (∀ (typeBytes : Bytes) (nonce : Nat) (data : JSData),
      sendFrames typeBytes nonce data (some .nonObj) =
        .error .metaNotObject) ∧
    (∀ (typeBytes : Bytes) (nonce : Nat),
      sendFrames typeBytes nonce .undef none = .error .dataUndefined) ∧
    (∀ (typeBytes : Bytes) (nonce : Nat) (j : Bytes),
      sendFrames typeBytes nonce .undef (some (.obj j)) =
        .error .dataUndefined) ∧
    (∀ (typeBytes : Bytes) (nonce : Nat) (s j : Bytes),
      sendFrames typeBytes nonce (.str s) (some (.obj j)) =
        .error .metaWithNonBinary) ∧
    (∀ (typeBytes : Bytes) (nonce : Nat) (o j : Bytes),
      sendFrames typeBytes nonce (.other o) (some (.obj j)) =
        .error .metaWithNonBinary) ∧
    pingCheck none = .error () ∧ pingCheck (some []) = .error () :=
  ⟨fun _ _ _ => rfl, fun _ _ => rfl, fun _ _ _ => rfl, fun _ _ _ _ => rfl,
    fun _ _ _ _ => rfl, rfl, rfl⟩

/-- C7: an inbound frame whose decoded 12-byte type field matches no
registered action raises a decode error; the reassembly store is untouched,
and on the event loop the error is scoped to that one message: processing
the offending frame followed by any other frames equals processing the
other frames alone, from the same store. -/
theorem C7_unregistered_type (actions : List Bytes) (st : TransState)
    (id : Nat) (frame : Bytes)
    (h : stripNul (decodeBytes (frame.take nonceIndex)) ∉ actions) :
    handleData actions st id frame = .error () ∧
    ∀ rest, handleAll actions st id (frame :: rest) =
      handleAll actions st id rest := by
  have herr : handleData actions st id frame = .error () := by
    rw [handleData]
    exact if_neg h
  refine ⟨herr, fun rest => ?_⟩
  rw [handleAll, handleAll, List.foldl_cons]
  congr 1
  rw [handleStep, herr]

/-- C7 witness: a frame carrying type `'b'` sent to a receiver that only
registered `'a'` errors out and leaves a nonempty store and the rest of the
stream untouched. -/
theorem C7_unregistered_type_witness :
    handleData [[97]] [] 7 [98, 0, 0, 0, 0, 0, 0, 0, 0, 0, 0, 0, 0, 1, 255] =
      .error () ∧
    ∀ rest, handleAll [[97]] [] 7
        ([98, 0, 0, 0, 0, 0, 0, 0, 0, 0, 0, 0, 0, 1, 255] :: rest) =
      handleAll [[97]] [] 7 rest :=
  C7_unregistered_type [[97]] [] 7 _ (by decide)

/-- C2: the number of frames produced by one `send` equals
ceil(payload bytes / fragment capacity), plus 1 if metadata is present, with
a minimum of 1; when metadata is present it occupies its own leading frame
(index 0), tagged carries-metadata. -/
theorem C2_frame_count (typeBytes : Bytes)
    (hlen : typeBytes.length ≤ typeByteLimit) (nonce : Nat) (data : JSData)
    (meta : Option JSMeta) (chunks : List Bytes) (n' : Nat)
    (hsend : sendFrames typeBytes nonce data meta = .ok (chunks, n')) :
    chunks.length =
      max (((bufferOf data).length + chunkSize - 1) / chunkSize +
        (if meta.isSome then 1 else 0)) 1 ∧
    (meta.isSome = true →
      Nat.testBit ((chunks.headD []).getD tagIndex 0) 1 = true ∧
      (chunks.headD []).drop payloadIndex = metaJson meta) := by
  obtain ⟨hA, hB, hC, hc, hn⟩ :=
    sendFrames_ok typeBytes nonce data meta chunks n' hsend
  subst hc
  have hT : (typeBytes ++
      List.replicate (typeByteLimit - typeBytes.length) 0).length =
      typeByteLimit := by
    simp only [List.length_append, List.length_replicate]
    omega
  constructor
  · simp only [alloc, List.length_map, List.length_range]
    exact chunkTotalOf_eq_max _ _
  · intro hm
    have hpos : 0 < chunkTotalOf (bufferOf data).length meta.isSome :=
      chunkTotalOf_pos _ _
    obtain ⟨k, hk⟩ : ∃ k, chunkTotalOf (bufferOf data).length meta.isSome =
        k + 1 :=
      ⟨chunkTotalOf (bufferOf data).length meta.isSome - 1, by omega⟩
    rw [alloc, hk, List.range_eq_range', List.range'_succ]
    simp only [List.map_cons, List.headD_cons]
    rw [mkChunk_eq _ hT nonce _ _ _ _ _ hk.symm (Nat.succ_pos k)]
    constructor
    · rw [wire_tag _ hT, tagByte_bit1]
      simp [hm]
    · rw [wire_payload _ hT]
      simp [payloadSliceOf, hm]

/-- C2 witness: a 2-byte binary payload with metadata yields 2 frames; the
leading frame is the metadata frame. -/
theorem C2_frame_count_witness :
    ([[97, 0, 0, 0, 0, 0, 0, 0, 0, 0, 0, 0, 0, 14, 128, 123],
      [97, 0, 0, 0, 0, 0, 0, 0, 0, 0, 0, 0, 0, 13, 255, 1, 2]] :
        List Bytes).length =
      max (((bufferOf (JSData.bin [1, 2])).length + chunkSize - 1) /
          chunkSize +
        (if (some (JSMeta.obj [123])).isSome then 1 else 0)) 1 ∧
    ((some (JSMeta.obj [123])).isSome = true →
      Nat.testBit
        ((([[97, 0, 0, 0, 0, 0, 0, 0, 0, 0, 0, 0, 0, 14, 128, 123],
          [97, 0, 0, 0, 0, 0, 0, 0, 0, 0, 0, 0, 0, 13, 255, 1, 2]] :
            List Bytes).headD []).getD tagIndex 0) 1 = true ∧
      (([[97, 0, 0, 0, 0, 0, 0, 0, 0, 0, 0, 0, 0, 14, 128, 123],
        [97, 0, 0, 0, 0, 0, 0, 0, 0, 0, 0, 0, 0, 13, 255, 1, 2]] :
          List Bytes).headD []).drop payloadIndex =
        metaJson (some (JSMeta.obj [123]))) :=
  C2_frame_count [97] (by decide) 0 (JSData.bin [1, 2])
    (some (JSMeta.obj [123]))
    [[97, 0, 0, 0, 0, 0, 0, 0, 0, 0, 0, 0, 0, 14, 128, 123],
      [97, 0, 0, 0, 0, 0, 0, 0, 0, 0, 0, 0, 0, 13, 255, 1, 2]] 1 rfl

/-- C9 counterexample: a caller invoking `makeAction` with the reserved
ping identifier `'__91n6__'` on a fresh room's registry hits the
memoization branch: it receives the ok result with the registry unchanged
and the handle of the already-registered internal ping action — the caller
does obtain the internal action's handles, refuting the claim. -/
theorem C9_counterexample :
    makeAction initialReg pingType = .ok (initialReg, pingType) ∧
    (makeAction.lookupAction initialReg pingType).isSome = true :=
  ⟨rfl, rfl⟩

/-- C9 (amended): the six reserved internal action identifiers fit the
12-byte budget, are nonempty and pairwise distinct, and are registered in a
fresh room's registry; `makeAction` does not hide them from callers — a
caller invoking `makeAction` with a reserved identifier obtains the
internal action's existing handles by memoization (registry unchanged). -/
theorem C9_reserved_names :
    (∀ ty ∈ internalTypes,
      ty ≠ [] ∧ (encodeBytes ty).length ≤ typeByteLimit ∧
        makeAction initialReg ty = .ok (initialReg, ty)) ∧
    internalTypes.Pairwise (· ≠ ·) := by
  constructor
  · intro ty hty
    simp only [internalTypes, List.mem_cons, List.mem_singleton,
      List.not_mem_nil, or_false] at hty
    rcases hty with rfl | rfl | rfl | rfl | rfl | rfl <;>
      exact ⟨by decide, by decide, rfl⟩
  · decide

/-- C9 witness: the ping identifier instance of the amended claim. -/
theorem C9_reserved_names_witness :
    pingType ≠ [] ∧ (encodeBytes pingType).length ≤ typeByteLimit ∧
      makeAction initialReg pingType = .ok (initialReg, pingType) :=
  C9_reserved_names.1 pingType (by decide)

/-- C10: every frame of a binary send has both the binary bit (bit 2) and
the JSON bit (bit 3) set, because the JSON flag is computed solely from the
data not being a string; and the receiver's completion dispatch checks the
binary bit first, so whenever it is set the delivered value is raw bytes
(`Delivered.bin`) regardless of the JSON bit. -/
theorem C10_binary_json_bit :
    (∀ (typeBytes : Bytes), typeBytes.length ≤ typeByteLimit →
      ∀ (nonce : Nat) (b : Bytes) (meta : Option JSMeta)
        (chunks : List Bytes) (n' : Nat),
      sendFrames typeBytes nonce (.bin b) meta = .ok (chunks, n') →
      ∀ c ∈ chunks, Nat.testBit (c.getD tagIndex 0) 2 = true ∧
        Nat.testBit (c.getD tagIndex 0) 3 = true) ∧
    (∀ (actions : List Bytes) (st : TransState) (id : Nat) (frame : Bytes)
        (r : HandleResult),
      handleData actions st id frame = .ok r →
      Nat.testBit (frame.getD tagIndex 0) 2 = true →
      r.completed = none ∨
        ∃ bytes m, r.completed = some (Delivered.bin bytes m)) := by
  constructor
  · intro typeBytes hlen nonce b meta chunks n' hsend c hcmem
    obtain ⟨hA, hB, hC, hc, hn⟩ :=
      sendFrames_ok typeBytes nonce (.bin b) meta chunks n' hsend
    subst hc
    have hT : (typeBytes ++
        List.replicate (typeByteLimit - typeBytes.length) 0).length =
        typeByteLimit := by
      simp only [List.length_append, List.length_replicate]
      omega
    simp only [alloc, List.mem_map, List.mem_range] at hcmem
    obtain ⟨i, hi, rfl⟩ := hcmem
    rw [mkChunk_eq _ hT nonce _ _ _ _ _ rfl hi]
    exact ⟨by rw [wire_tag _ hT, tagByte_bit2]; rfl,
      by rw [wire_tag _ hT, tagByte_bit3]; rfl⟩
  · intro actions st id frame r h hbit
    simp only [handleData] at h
    split at h
    · split at h
      · have hcomp := congrArg HandleResult.completed (Except.ok.inj h)
        simp only [hbit, if_true, reduceIte] at hcomp
        exact Or.inr ⟨_, _, hcomp.symm⟩
      · have hcomp := congrArg HandleResult.completed (Except.ok.inj h)
        exact Or.inl hcomp.symm
    · exact absurd h (by simp)

/-- C10 witness: a one-byte binary send without metadata; its only frame
has tag 13 (last + binary + JSON), and feeding it back completes with raw
bytes. -/
theorem C10_binary_json_bit_witness :
    (Nat.testBit
        (([97, 0, 0, 0, 0, 0, 0, 0, 0, 0, 0, 0, 0, 13, 255, 5] :
          Bytes).getD tagIndex 0) 2 = true ∧
      Nat.testBit
        (([97, 0, 0, 0, 0, 0, 0, 0, 0, 0, 0, 0, 0, 13, 255, 5] :
          Bytes).getD tagIndex 0) 3 = true) ∧
    ((handleData [[97]] [] 7
        [97, 0, 0, 0, 0, 0, 0, 0, 0, 0, 0, 0, 0, 13, 255, 5]).toOption.map
      HandleResult.completed) = some (some (Delivered.bin [5] none)) :=
  ⟨(C10_binary_json_bit.1 [97] (by decide) 0 [5] none
      [[97, 0, 0, 0, 0, 0, 0, 0, 0, 0, 0, 0, 0, 13, 255, 5]] 1 rfl)
      _ (by simp),
    rfl⟩

/-- C3 counterexample: the claim's bound "each frame's payload is at most
the 16 KiB channel frame limit minus the 15-byte header" fails on the
metadata frame. Sending one binary byte with a metadata object whose
serialization is `chunkSize + 1` bytes long produces a leading metadata
frame whose payload is `chunkSize + 1 > chunkSize` bytes: the code never
splits the metadata. -/
theorem C3_counterexample :
    ((sendFrames [97] 0 (JSData.bin [0])
        (some (JSMeta.obj (List.replicate (chunkSize + 1) 48)))).toOption.map
      (fun r => ((r.1.headD []).drop payloadIndex).length)) =
      some (chunkSize + 1) ∧
    chunkSize < chunkSize + 1 := by
  constructor
  · obtain ⟨chunks, n', hsend⟩ :
        ∃ c n, sendFrames [97] 0 (JSData.bin [0])
          (some (JSMeta.obj (List.replicate (chunkSize + 1) 48))) =
            .ok (c, n) := ⟨_, _, rfl⟩
    obtain ⟨hA, hB, hC, hc, hn⟩ := sendFrames_ok _ _ _ _ _ _ hsend
    subst hc
    rw [hsend]
    have hT : (([97] : Bytes) ++
        List.replicate (typeByteLimit - List.length [97]) 0).length =
        typeByteLimit := by decide
    have htot : chunkTotalOf (List.length (bufferOf (JSData.bin [0])))
        (some (JSMeta.obj (List.replicate (chunkSize + 1) 48))).isSome = 2 :=
      by decide
    rw [htot]
    rw [alloc, show List.range 2 = [0, 1] from rfl]
    simp only [List.map_cons, List.map_nil]
    rw [mkChunk_eq _ hT 0 _ _ _ _ _ htot.symm (by omega)]
    simp only [Except.toOption, Option.map_some', List.headD_cons]
    rw [wire_payload _ hT]
    simp [payloadSliceOf, metaJson, encodeBytes, toJson]
  · omega

/-- C3 (amended): every frame produced by `send` has the bit-exact layout:
bytes 0-11 the action type name zero-padded to 12 bytes, byte 12 the nonce
(through the Uint8Array byte coercion), byte 13 the tag bitfield (bit 0
last-fragment, bit 1 carries-metadata, bit 2 binary, bit 3 JSON), byte 14
the progress scaled to 0-255, and bytes 15 onward the payload slice. Every
frame that is not the metadata frame has payload at most `chunkSize`
(16 KiB minus the 15-byte header); the metadata frame instead carries the
entire serialized metadata, of whatever size. -/
theorem C3_frame_layout (typeBytes : Bytes)
    (hlen : typeBytes.length ≤ typeByteLimit) (nonce : Nat) (data : JSData)
    (meta : Option JSMeta) (chunks : List Bytes) (n' : Nat)
    (hsend : sendFrames typeBytes nonce data meta = .ok (chunks, n')) :
    ∀ i (hi : i < chunks.length),
      chunks.get ⟨i, hi⟩ =
        (typeBytes ++ List.replicate (typeByteLimit - typeBytes.length) 0) ++
          (nonce % (oneByteMax + 1)) ::
          tagByte (i == chunkTotalOf (bufferOf data).length meta.isSome - 1)
            (meta.isSome && i == 0) (isBinaryOf data) (isJsonOf data) ::
          progressByte i (chunkTotalOf (bufferOf data).length meta.isSome) ::
          payloadSliceOf (bufferOf data) (metaJson meta) meta.isSome i ∧
      progressByte i (chunkTotalOf (bufferOf data).length meta.isSome) ≤
        oneByteMax ∧
      (¬(meta.isSome = true ∧ i = 0) →
        (payloadSliceOf (bufferOf data) (metaJson meta) meta.isSome i).length ≤
          chunkSize) ∧
      (meta.isSome = true ∧ i = 0 →
        payloadSliceOf (bufferOf data) (metaJson meta) meta.isSome i =
          metaJson meta) := by
  obtain ⟨hA, hB, hC, hc, hn⟩ :=
    sendFrames_ok typeBytes nonce data meta chunks n' hsend
  subst hc
  have hT : (typeBytes ++
      List.replicate (typeByteLimit - typeBytes.length) 0).length =
      typeByteLimit := by
    simp only [List.length_append, List.length_replicate]
    omega
  intro i hi
  have hi' : i < chunkTotalOf (bufferOf data).length meta.isSome := by
    simpa [alloc] using hi
  refine ⟨?_, progressByte_le _ _ hi', ?_, ?_⟩
  · simp only [alloc, List.get_eq_getElem, List.getElem_map,
      List.getElem_range]
    exact mkChunk_eq _ hT nonce _ _ _ _ _ rfl hi'
  · intro hnm
    cases hmeta : meta.isSome with
    | false =>
      simp only [payloadSliceOf, hmeta, Bool.false_eq_true, if_false]
      exact List.length_take_le _ _
    | true =>
      have hi0 : ¬i = 0 := fun hz => hnm ⟨hmeta, hz⟩
      simp only [payloadSliceOf, hmeta, if_true, hi0, if_false]
      exact List.length_take_le _ _
  · rintro ⟨hm, rfl⟩
    simp [payloadSliceOf, hm]

/-- C3 witness for the amended layout: the single frame of a one-byte
binary send without metadata. -/
theorem C3_frame_layout_witness :
    ([[97, 0, 0, 0, 0, 0, 0, 0, 0, 0, 0, 0, 0, 13, 255, 5]] :
        List Bytes).get ⟨0, by decide⟩ =
      (([97] : Bytes) ++
        List.replicate (typeByteLimit - List.length [97]) 0) ++
        (0 % (oneByteMax + 1)) ::
        tagByte
          (0 == chunkTotalOf (bufferOf (JSData.bin [5])).length
            (none : Option JSMeta).isSome - 1)
          ((none : Option JSMeta).isSome && 0 == 0)
          (isBinaryOf (JSData.bin [5])) (isJsonOf (JSData.bin [5])) ::
        progressByte 0 (chunkTotalOf (bufferOf (JSData.bin [5])).length
          (none : Option JSMeta).isSome) ::
        payloadSliceOf (bufferOf (JSData.bin [5])) (metaJson none)
          (none : Option JSMeta).isSome 0 ∧
      progressByte 0 (chunkTotalOf (bufferOf (JSData.bin [5])).length
        (none : Option JSMeta).isSome) ≤ oneByteMax ∧
      (¬((none : Option JSMeta).isSome = true ∧ 0 = 0) →
        (payloadSliceOf (bufferOf (JSData.bin [5])) (metaJson none)
          (none : Option JSMeta).isSome 0).length ≤ chunkSize) ∧
      ((none : Option JSMeta).isSome = true ∧ 0 = 0 →
        payloadSliceOf (bufferOf (JSData.bin [5])) (metaJson none)
          (none : Option JSMeta).isSome 0 = metaJson none) :=
  C3_frame_layout [97] (by decide) 0 (JSData.bin [5]) none
    [[97, 0, 0, 0, 0, 0, 0, 0, 0, 0, 0, 0, 0, 13, 255, 5]] 1 rfl 0
    (by decide)

/-- C1: for every payload (any size, text, JSON, or binary classification)
and metadata presence accepted by `send`, feeding the produced frames, in
order, to the inbound handler of a receiver with the same action registered
reproduces the original bytes and the metadata exactly and invokes the
completion callback exactly once (`deliveredOf` returns the original
payload representation and metadata); the reassembly store is left empty.
In particular an empty-string payload is delivered as the empty string
(see the witness). The hypothesis that the action name has no NUL bytes
reflects real action names; the 12-byte type field strips NULs on
receipt. -/
theorem C1_round_trip (actions : List Bytes) (typeBytes : Bytes)
    (h0 : ∀ b ∈ typeBytes, b ≠ 0) (hlen : typeBytes.length ≤ typeByteLimit)
    (hreg : typeBytes ∈ actions) (id nonce : Nat) (data : JSData)
    (meta : Option JSMeta) (chunks : List Bytes) (n' : Nat)
    (hsend : sendFrames typeBytes nonce data meta = .ok (chunks, n')) :
    (handleAll actions [] id chunks).2.2 =
      [deliveredOf data
        (if meta.isSome then some (metaJson meta) else none)] ∧
    (handleAll actions [] id chunks).1 = [] := by
  rw [transmission_run actions typeBytes h0 hlen hreg id nonce data meta
    chunks n' hsend]
  exact ⟨rfl, rfl⟩

/-- C1 witness: the empty-string payload round-trips as the empty string
(`Delivered.txt []`), not as a missing or null value. -/
theorem C1_round_trip_witness :
    (handleAll [[97]] [] 7
        [[97, 0, 0, 0, 0, 0, 0, 0, 0, 0, 0, 0, 0, 1, 255]]).2.2 =
      [deliveredOf (JSData.str [])
        (if (none : Option JSMeta).isSome then some (metaJson none)
         else none)] ∧
    (handleAll [[97]] [] 7
        [[97, 0, 0, 0, 0, 0, 0, 0, 0, 0, 0, 0, 0, 1, 255]]).1 = [] :=
  C1_round_trip [[97]] [97] (by decide) (by decide) (by decide) 7 0
    (JSData.str []) none [[97, 0, 0, 0, 0, 0, 0, 0, 0, 0, 0, 0, 0, 1, 255]]
    1 rfl

/-- C8: for every transmission, the sender's progress-callback values and
the receiver's progress-callback values are the same byte sequence (so the
call counts match, one per frame, metadata frame included), the sequence is
non-decreasing, and it ends with exactly 255 (normalized 1.0) on both
sides. -/
theorem C8_progress (actions : List Bytes) (typeBytes : Bytes)
    (h0 : ∀ b ∈ typeBytes, b ≠ 0) (hlen : typeBytes.length ≤ typeByteLimit)
    (hreg : typeBytes ∈ actions) (id nonce : Nat) (data : JSData)
    (meta : Option JSMeta) (chunks : List Bytes) (n' : Nat)
    (hsend : sendFrames typeBytes nonce data meta = .ok (chunks, n')) :
    senderProgressBytes chunks =
      ((handleAll actions [] id chunks).2.1).map Prod.fst ∧
    List.Chain' (· ≤ ·) (senderProgressBytes chunks) ∧
    (senderProgressBytes chunks).getLast? = some oneByteMax ∧
    ((handleAll actions [] id chunks).2.1).length = chunks.length := by
  have hrun := transmission_run actions typeBytes h0 hlen hreg id nonce data
    meta chunks n' hsend
  obtain ⟨hA, hB, hC, hc, hn⟩ :=
    sendFrames_ok typeBytes nonce data meta chunks n' hsend
  have hT : (typeBytes ++
      List.replicate (typeByteLimit - typeBytes.length) 0).length =
      typeByteLimit := by
    simp only [List.length_append, List.length_replicate]
    omega
  have hsender : senderProgressBytes chunks =
      (List.range (chunkTotalOf (bufferOf data).length meta.isSome)).map
        (fun i =>
          progressByte i (chunkTotalOf (bufferOf data).length meta.isSome)) := by
    rw [hc]
    simp only [alloc, senderProgressBytes, List.map_map]
    apply List.map_congr_left
    intro i hi
    simp only [Function.comp]
    rw [mkChunk_eq _ hT nonce _ _ _ _ _ rfl (List.mem_range.mp hi),
      wire_prog _ hT]
  have hrecv : ((handleAll actions [] id chunks).2.1).map Prod.fst =
      (List.range (chunkTotalOf (bufferOf data).length meta.isSome)).map
        (fun i =>
          progressByte i (chunkTotalOf (bufferOf data).length meta.isSome)) := by
    rw [hrun]
    simp [List.map_map, Function.comp]
  refine ⟨hsender.trans hrecv.symm, ?_, ?_, ?_⟩
  · rw [hsender, List.chain'_map]
    cases hcase : chunkTotalOf (bufferOf data).length meta.isSome with
    | zero => simp
    | succ k =>
      rw [List.chain'_range_succ]
      intro m hm
      exact progressByte_mono _ (by omega)
  · rw [hsender]
    have hpos : 0 < chunkTotalOf (bufferOf data).length meta.isSome :=
      chunkTotalOf_pos _ _
    obtain ⟨k, hk⟩ : ∃ k, chunkTotalOf (bufferOf data).length meta.isSome =
        k + 1 :=
      ⟨chunkTotalOf (bufferOf data).length meta.isSome - 1, by omega⟩
    rw [hk, List.range_succ, List.map_append, List.map_cons, List.map_nil,
      List.getLast?_concat]
    exact congrArg some (progressByte_last (k + 1) (Nat.succ_pos k))
  · rw [hrun, hc]
    simp [alloc]

/-- C8 witness: the two-frame metadata transmission; both sides see the
progress bytes `[128, 255]`. -/
theorem C8_progress_witness :
    senderProgressBytes
        [[97, 0, 0, 0, 0, 0, 0, 0, 0, 0, 0, 0, 0, 14, 128, 123],
          [97, 0, 0, 0, 0, 0, 0, 0, 0, 0, 0, 0, 0, 13, 255, 1, 2]] =
      ((handleAll [[97]] [] 7
          [[97, 0, 0, 0, 0, 0, 0, 0, 0, 0, 0, 0, 0, 14, 128, 123],
            [97, 0, 0, 0, 0, 0, 0, 0, 0, 0, 0, 0, 0, 13, 255, 1, 2]]).2.1).map
        Prod.fst ∧
    List.Chain' (· ≤ ·) (senderProgressBytes
      [[97, 0, 0, 0, 0, 0, 0, 0, 0, 0, 0, 0, 0, 14, 128, 123],
        [97, 0, 0, 0, 0, 0, 0, 0, 0, 0, 0, 0, 0, 13, 255, 1, 2]]) ∧
    (senderProgressBytes
      [[97, 0, 0, 0, 0, 0, 0, 0, 0, 0, 0, 0, 0, 14, 128, 123],
        [97, 0, 0, 0, 0, 0, 0, 0, 0, 0, 0, 0, 0, 13, 255, 1, 2]]).getLast? =
      some oneByteMax ∧
    ((handleAll [[97]] [] 7
        [[97, 0, 0, 0, 0, 0, 0, 0, 0, 0, 0, 0, 0, 14, 128, 123],
          [97, 0, 0, 0, 0, 0, 0, 0, 0, 0, 0, 0, 0, 13, 255, 1, 2]]).2.1).length =
      ([[97, 0, 0, 0, 0, 0, 0, 0, 0, 0, 0, 0, 0, 14, 128, 123],
        [97, 0, 0, 0, 0, 0, 0, 0, 0, 0, 0, 0, 0, 13, 255, 1, 2]] :
          List Bytes).length :=
  C8_progress [[97]] [97] (by decide) (by decide) (by decide) 7 0
    (JSData.bin [1, 2]) (some (JSMeta.obj [123]))
    [[97, 0, 0, 0, 0, 0, 0, 0, 0, 0, 0, 0, 0, 14, 128, 123],
      [97, 0, 0, 0, 0, 0, 0, 0, 0, 0, 0, 0, 0, 13, 255, 1, 2]] 1 rfl

end Trystero
